import Mathlib

/-!
Verification development for the X25519 recipient module of the rage
repository (src/format/x25519.rs).  The module under verification
orchestrates key agreement, key derivation and authenticated encryption to
wrap a 16-byte file key for a recipient, and defines the stanza codec for
the wire format.  The cryptographic primitives (x25519, hkdf, aead,
base64 helpers, the generic stanza tokenizer) live outside the provided
source tree, so they are modelled from the specification; the wrap, unwrap,
parse and serialize orchestration is translated from the source.
-/

namespace RageX25519

/-- Byte strings are lists of natural numbers; a well-formed byte is below 256. -/
abbrev Bytes := List Nat

/-- Interpret a byte list as a natural number, little endian. -/
def bytesToNat : Bytes → Nat
  | [] => 0
  | b :: rest => b + 256 * bytesToNat rest

/-- Little-endian encoding of a natural number into a fixed number of bytes. -/
def natToBytes : Nat → Nat → Bytes
  | 0, _ => []
  | k + 1, x => x % 256 :: natToBytes k (x / 256)

theorem natToBytes_length (k x : Nat) : (natToBytes k x).length = k := by
  induction k generalizing x with
  | zero => rfl
  | succ k ih => simp [natToBytes, ih]

theorem natToBytes_lt (k x : Nat) : ∀ b ∈ natToBytes k x, b < 256 := by
  induction k generalizing x with
  | zero => intro b hb; simp [natToBytes] at hb
  | succ k ih =>
    intro b hb
    simp only [natToBytes, List.mem_cons] at hb
    rcases hb with h | h
    · omega
    · exact ih _ b h

theorem bytesToNat_natToBytes (k x : Nat) (h : x < 2 ^ (8 * k)) :
    bytesToNat (natToBytes k x) = x := by
  induction k generalizing x with
  | zero => simp [natToBytes, bytesToNat]; omega
  | succ k ih =>
    have hx : x / 256 < 2 ^ (8 * k) := by
      have h2 : 2 ^ (8 * (k + 1)) = 2 ^ (8 * k) * 256 := by ring
      rw [h2] at h
      omega
    simp [natToBytes, bytesToNat, ih (x / 256) hx]
    omega

/-- Modelled from the spec: the x25519 curve group, absent from src/.  Key
agreement is modelled as modular exponentiation over a fixed base and the
curve prime, which gives the Diffie-Hellman commutation property the spec
relies on.  Secrets are natural-number scalars; public keys are 32-byte
encodings of group elements. -/
def curveP : Nat := 2 ^ 255 - 19

/-- Modelled from the spec: the fixed base point of the modelled group. -/
def curveBase : Nat := 9

/-- Modelled from the spec: derive the public key of a static or ephemeral
secret scalar, as its 32-byte encoding. -/
def publicKeyOf (sk : Nat) : Bytes :=
  natToBytes 32 (curveBase ^ sk % curveP)

/-- Modelled from the spec: the shared secret of a private scalar and a peer
public key, as 32 bytes. -/
def diffieHellman (sk : Nat) (pk : Bytes) : Bytes :=
  natToBytes 32 (bytesToNat pk ^ sk % curveP)

theorem curveP_lt : curveP < 2 ^ (8 * 32) := by
  unfold curveP
  norm_num

theorem diffieHellman_comm (a b : Nat) :
    diffieHellman a (publicKeyOf b) = diffieHellman b (publicKeyOf a) := by
  unfold diffieHellman publicKeyOf
  have hb : curveBase ^ b % curveP < 2 ^ (8 * 32) :=
    lt_of_lt_of_le (Nat.mod_lt _ (by unfold curveP; norm_num)) (le_of_lt curveP_lt)
  have ha : curveBase ^ a % curveP < 2 ^ (8 * 32) :=
    lt_of_lt_of_le (Nat.mod_lt _ (by unfold curveP; norm_num)) (le_of_lt curveP_lt)
  rw [bytesToNat_natToBytes 32 _ hb, bytesToNat_natToBytes 32 _ ha]
  rw [← Nat.pow_mod, ← Nat.pow_mod, ← Nat.pow_mul, ← Nat.pow_mul, Nat.mul_comm]

/-- Modelled from the spec: one mixing step of the toy hash underlying the
modelled hkdf and aead primitives. -/
def mixStep (acc x : Nat) : Nat := (acc * 257 + x + 1) % 2 ^ 64

/-- Modelled from the spec: absorb a byte string into an accumulator. -/
def absorb (l : Bytes) (seed : Nat) : Nat := l.foldl mixStep seed

/-- Modelled from the spec: HKDF-style derivation over salt, label and input
keying material, producing a 32-byte symmetric key.  Only determinism and
sensitivity to all three inputs matter to the wrap and unwrap proofs. -/
def hkdf (salt label ikm : Bytes) : Bytes :=
  let s := absorb ikm (absorb label (absorb salt 7))
  (List.range 32).map (fun i => (s / 2 ^ (8 * (i % 8)) + i) % 256)

/-- Modelled from the spec: keystream bytes for the modelled aead cipher. -/
def keystream (key : Bytes) (n : Nat) : Bytes :=
  (List.range n).map (fun i => absorb key (i + 13) % 256)

/-- Modelled from the spec: the 16-byte authentication tag of the modelled
aead over a key and a ciphertext. -/
def aeadTag (key ct : Bytes) : Bytes :=
  (List.range 16).map (fun i => absorb ct (absorb key (i + 29)) % 256)

/-- Modelled from the spec: aead encryption, producing ciphertext followed by
a 16-byte tag. -/
def aead_encrypt (key pt : Bytes) : Bytes :=
  let ct := List.zipWith (fun b k => (b + k) % 256) pt (keystream key pt.length)
  ct ++ aeadTag key ct

/-- Modelled from the spec: aead decryption; verifies the trailing 16-byte tag
and on success returns the recovered plaintext, otherwise a single opaque
failure. -/
def aead_decrypt (key input : Bytes) : Option Bytes :=
  if 16 ≤ input.length then
    let ct := input.take (input.length - 16)
    let tg := input.drop (input.length - 16)
    if tg = aeadTag key ct then
      some (List.zipWith (fun c k => (c + (256 - k)) % 256) ct (keystream key ct.length))
    else none
  else none

theorem keystream_length (key : Bytes) (n : Nat) : (keystream key n).length = n := by
  simp [keystream]

theorem keystream_lt (key : Bytes) (n : Nat) : ∀ k ∈ keystream key n, k < 256 := by
  intro k hk
  simp only [keystream, List.mem_map] at hk
  obtain ⟨i, _, hi⟩ := hk
  omega

theorem aead_encrypt_length (key pt : Bytes) :
    (aead_encrypt key pt).length = pt.length + 16 := by
  simp [aead_encrypt, aeadTag, keystream_length]

theorem mask_unmask (pt ks : Bytes) (hpt : ∀ b ∈ pt, b < 256) (hks : ∀ k ∈ ks, k < 256)
    (hlen : pt.length ≤ ks.length) :
    List.zipWith (fun c k => (c + (256 - k)) % 256)
      (List.zipWith (fun b k => (b + k) % 256) pt ks) ks = pt := by
  induction pt generalizing ks with
  | nil => simp
  | cons b rest ih =>
    cases ks with
    | nil => simp at hlen
    | cons k krest =>
      have hb : b < 256 := hpt b (by simp)
      have hk : k < 256 := hks k (by simp)
      simp only [List.zipWith_cons_cons]
      rw [ih krest (fun x hx => hpt x (by simp [hx])) (fun x hx => hks x (by simp [hx]))
        (by simpa using Nat.le_of_succ_le_succ hlen)]
      congr 1
      omega

theorem aead_decrypt_encrypt (key pt : Bytes) (h : ∀ b ∈ pt, b < 256) :
    aead_decrypt key (aead_encrypt key pt) = some pt := by
  have hks := keystream_lt key pt.length
  have hkl := keystream_length key pt.length
  unfold aead_encrypt aead_decrypt
  simp only
  set ct := List.zipWith (fun b k => (b + k) % 256) pt (keystream key pt.length) with hctdef
  have hct : ct.length = pt.length := by
    simp [hctdef, hkl]
  have hlen : (ct ++ aeadTag key ct).length = pt.length + 16 := by
    simp [aeadTag, hct]
  rw [hlen, if_pos (by omega : (16 : Nat) ≤ pt.length + 16), Nat.add_sub_cancel]
  rw [List.take_left' hct, List.drop_left' hct, if_pos rfl, hct]
  rw [mask_unmask pt _ h hks (by rw [hkl])]

theorem aead_decrypt_length (key input pt : Bytes) (h : aead_decrypt key input = some pt) :
    pt.length = input.length - 16 := by
  unfold aead_decrypt at h
  by_cases h16 : 16 ≤ input.length
  · rw [if_pos h16] at h
    by_cases htag : input.drop (input.length - 16)
        = aeadTag key (input.take (input.length - 16))
    · rw [if_pos htag] at h
      have hlen : pt.length = min (input.take (input.length - 16)).length
          (keystream key (input.take (input.length - 16)).length).length := by
        have h2 := Option.some.inj h
        rw [← h2]
        simp
      rw [hlen]
      simp [keystream_length]
    · rw [if_neg htag] at h
      exact absurd h (by simp)
  · rw [if_neg h16] at h
    exact absurd h (by simp)

/-- Modelled from the spec: map a six-bit value to its character code in the
standard base64 alphabet. -/
def encChar (s : Nat) : Nat :=
  if s < 26 then 65 + s
  else if s < 52 then 97 + (s - 26)
  else if s < 62 then 48 + (s - 52)
  else if s = 62 then 43
  else 47

/-- Modelled from the spec: map a character code back to its six-bit value in
the standard base64 alphabet; characters outside the alphabet are refused. -/
def decChar (c : Nat) : Option Nat :=
  if 65 ≤ c ∧ c ≤ 90 then some (c - 65)
  else if 97 ≤ c ∧ c ≤ 122 then some (c - 97 + 26)
  else if 48 ≤ c ∧ c ≤ 57 then some (c - 48 + 52)
  else if c = 43 then some 62
  else if c = 47 then some 63
  else none

/-- Modelled from the spec: padding-free standard base64 encoding of a byte
string, three input bytes per four output characters. -/
def b64encode : Bytes → Bytes
  | [] => []
  | [a] => [encChar (a / 4), encChar (a % 4 * 16)]
  | [a, b] => [encChar (a / 4), encChar (a % 4 * 16 + b / 16), encChar (b % 16 * 4)]
  | a :: b :: c :: rest =>
      encChar (a / 4) :: encChar (a % 4 * 16 + b / 16) :: encChar (b % 16 * 4 + c / 64)
        :: encChar (c % 64) :: b64encode rest

/-- Modelled from the spec: padding-free standard base64 decoding, four input
characters per three output bytes; a trailing group of two or three characters
yields one or two bytes, and a trailing single character is malformed. -/
def b64decode : Bytes → Option Bytes
  | [] => some []
  | [_] => none
  | [c1, c2] =>
    match decChar c1, decChar c2 with
    | some s1, some s2 => some [s1 * 4 + s2 / 16]
    | _, _ => none
  | [c1, c2, c3] =>
    match decChar c1, decChar c2, decChar c3 with
    | some s1, some s2, some s3 => some [s1 * 4 + s2 / 16, s2 % 16 * 16 + s3 / 4]
    | _, _, _ => none
  | c1 :: c2 :: c3 :: c4 :: rest =>
    match decChar c1, decChar c2, decChar c3, decChar c4, b64decode rest with
    | some s1, some s2, some s3, some s4, some bs =>
        some ((s1 * 4 + s2 / 16) :: (s2 % 16 * 16 + s3 / 4) :: (s3 % 4 * 64 + s4) :: bs)
    | _, _, _, _, _ => none

theorem decChar_encChar (s : Nat) (h : s < 64) : decChar (encChar s) = some s := by
  revert h
  revert s
  decide

theorem encChar_ge (s : Nat) : 43 ≤ encChar s := by
  unfold encChar
  repeat' split
  all_goals omega

theorem b64encode_mem_ge (bs : Bytes) : ∀ c ∈ b64encode bs, 43 ≤ c := by
  induction bs using b64encode.induct with
  | case1 =>
    intro c hc
    simp [b64encode] at hc
  | case2 a =>
    intro c hc
    simp only [b64encode, List.mem_cons, List.not_mem_nil, or_false] at hc
    rcases hc with h | h <;> (subst h; exact encChar_ge _)
  | case3 a b =>
    intro c hc
    simp only [b64encode, List.mem_cons, List.not_mem_nil, or_false] at hc
    rcases hc with h | h | h <;> (subst h; exact encChar_ge _)
  | case4 a b c rest ih =>
    intro x hx
    simp only [b64encode, List.mem_cons] at hx
    rcases hx with h | h | h | h | h
    · subst h; exact encChar_ge _
    · subst h; exact encChar_ge _
    · subst h; exact encChar_ge _
    · subst h; exact encChar_ge _
    · exact ih x h

theorem b64encode_ne_nil (bs : Bytes) (h : bs ≠ []) : b64encode bs ≠ [] := by
  match bs with
  | [] => exact absurd rfl h
  | [a] => simp [b64encode]
  | [a, b] => simp [b64encode]
  | a :: b :: c :: rest => simp [b64encode]

theorem b64decode_b64encode (bs : Bytes) (h : ∀ b ∈ bs, b < 256) :
    b64decode (b64encode bs) = some bs := by
  induction bs using b64encode.induct with
  | case1 => rfl
  | case2 a =>
    have ha : a < 256 := h a (by simp)
    simp only [b64encode, b64decode]
    rw [decChar_encChar (a / 4) (by omega), decChar_encChar (a % 4 * 16) (by omega)]
    simp only [Option.some.injEq, List.cons.injEq, and_true]
    omega
  | case3 a b =>
    have ha : a < 256 := h a (by simp)
    have hb : b < 256 := h b (by simp)
    simp only [b64encode, b64decode]
    rw [decChar_encChar (a / 4) (by omega), decChar_encChar (a % 4 * 16 + b / 16) (by omega),
      decChar_encChar (b % 16 * 4) (by omega)]
    simp only [Option.some.injEq, List.cons.injEq, and_true]
    constructor
    · omega
    · omega
  | case4 a b c rest ih =>
    have ha : a < 256 := h a (by simp)
    have hb : b < 256 := h b (by simp)
    have hc : c < 256 := h c (by simp)
    have hrest : ∀ x ∈ rest, x < 256 := fun x hx => h x (by simp [hx])
    simp only [b64encode, b64decode]
    rw [decChar_encChar (a / 4) (by omega), decChar_encChar (a % 4 * 16 + b / 16) (by omega),
      decChar_encChar (b % 16 * 4 + c / 64) (by omega), decChar_encChar (c % 64) (by omega),
      ih hrest]
    simp only [Option.some.injEq, List.cons.injEq, and_true]
    refine ⟨by omega, by omega, by omega⟩

/-- Byte string of an ASCII string literal. -/
def strBytes (s : String) : Bytes := s.toList.map Char.toNat

/-- Tag constant X25519_RECIPIENT_TAG from the source, as bytes. -/
def X25519_RECIPIENT_TAG : Bytes := strBytes "X25519"

/-- Label constant X25519_RECIPIENT_KEY_LABEL from the source. -/
def X25519_RECIPIENT_KEY_LABEL : Bytes := strBytes "age-encryption.org/v1/X25519"

/-- Constant EPK_LEN_BYTES from the source. -/
def EPK_LEN_BYTES : Nat := 32

/-- Constant ENCRYPTED_FILE_KEY_BYTES from the source. -/
def ENCRYPTED_FILE_KEY_BYTES : Nat := 32

/-- The RecipientLine structure from the source: an ephemeral public key and
the encrypted file key with its tag.  The Rust field types are fixed 32-byte
arrays; here both fields are byte lists with well-formedness stated where a
theorem needs it. -/
structure RecipientLine where
  epk : Bytes
  encrypted_file_key : Bytes
deriving DecidableEq

/-- The Rust fixed-size array copy: copy_from_slice succeeds exactly when the
source length equals the destination length, and panics otherwise; the panic
is modelled as none. -/
def copy_from_slice (dstLen : Nat) (src : Bytes) : Option Bytes :=
  if src.length = dstLen then some src else none

/-- RecipientLine.wrap_file_key translated from the source, generic in the
key-derivation and aead-encryption primitives so that theorems can speak
about the arguments the orchestration passes to them.  The ephemeral secret
is an explicit parameter standing for the fresh randomness drawn per call;
the unchecked copy into the 32-byte array is the fallible copy_from_slice,
with none standing for the panic. -/
def wrap_file_key_gen (hkdfF : Bytes → Bytes → Bytes → Bytes)
    (aeadEnc : Bytes → Bytes → Bytes)
    (esk : Nat) (file_key : Bytes) (pk : Bytes) : Option RecipientLine :=
  let epk := publicKeyOf esk
  let shared_secret := diffieHellman esk pk
  let salt := ([] ++ epk) ++ pk
  let enc_key := hkdfF salt X25519_RECIPIENT_KEY_LABEL shared_secret
  match copy_from_slice ENCRYPTED_FILE_KEY_BYTES (aeadEnc enc_key file_key) with
  | some k => some { epk := epk, encrypted_file_key := k }
  | none => none

/-- RecipientLine.wrap_file_key instantiated with the modelled primitives. -/
def wrap_file_key (esk : Nat) (file_key : Bytes) (pk : Bytes) : Option RecipientLine :=
  wrap_file_key_gen hkdf aead_encrypt esk file_key pk

/-- Outcome of unwrap_file_key: success with the recovered file-key bytes, the
single opaque decryption failure, or the panic of the unchecked copy. -/
inductive UnwrapResult where
  | ok (file_key : Bytes)
  | err
  | panic
deriving DecidableEq

/-- RecipientLine.unwrap_file_key translated from the source, generic in the
key-derivation and aead-decryption primitives.  The static secret is the
scalar sk; the source first derives its own public key from sk, computes the
shared secret with the stored epk, rebuilds the salt, derives the key, and
attempts authenticated decryption; on success the plaintext is copied into a
16-byte array by the unchecked copy. -/
def unwrap_file_key_gen (hkdfF : Bytes → Bytes → Bytes → Bytes)
    (aeadDec : Bytes → Bytes → Option Bytes)
    (line : RecipientLine) (sk : Nat) : UnwrapResult :=
  let pk := publicKeyOf sk
  let shared_secret := diffieHellman sk line.epk
  let salt := ([] ++ line.epk) ++ pk
  let enc_key := hkdfF salt X25519_RECIPIENT_KEY_LABEL shared_secret
  match aeadDec enc_key line.encrypted_file_key with
  | none => .err
  | some pt =>
    match copy_from_slice 16 pt with
    | some fk => .ok fk
    | none => .panic

/-- RecipientLine.unwrap_file_key instantiated with the modelled primitives. -/
def unwrap_file_key (line : RecipientLine) (sk : Nat) : UnwrapResult :=
  unwrap_file_key_gen hkdf aead_decrypt line sk

/-- A generic stanza as produced by the external tokenizer: a tag, an ordered
argument list, and the already base64-decoded binary body. -/
structure Stanza where
  tag : Bytes
  args : List Bytes
  body : Bytes
deriving DecidableEq

/-- Modelled from the spec: the base64_arg helper of the util module, absent
from src/.  It decodes one argument with the padding-free base64 variant and
succeeds only when the decoded length matches the requested fixed size. -/
def base64_arg (arg : Bytes) (len : Nat) : Option Bytes :=
  (b64decode arg).bind (fun bs => if bs.length = len then some bs else none)

/-- The stanza-level closure of read::recipient_line translated from the
source: reject on a tag mismatch, take the first argument and decode it as a
32-byte key, and convert the body into the 32-byte encrypted file key; every
failure is the single not-applicable outcome none. -/
def recipient_line_parse (stanza : Stanza) : Option RecipientLine :=
  if stanza.tag ≠ X25519_RECIPIENT_TAG then none
  else
    match stanza.args.get? 0 with
    | none => none
    | some a =>
      match base64_arg a EPK_LEN_BYTES with
      | none => none
      | some epk =>
        if stanza.body.length = ENCRYPTED_FILE_KEY_BYTES then
          some { epk := epk, encrypted_file_key := stanza.body }
        else none

/-- Split a byte string on a separator byte; used by the modelled tokenizer. -/
def splitOnByte (sep : Nat) : Bytes → List Bytes
  | [] => [[]]
  | b :: rest =>
    if b = sep then [] :: splitOnByte sep rest
    else
      match splitOnByte sep rest with
      | [] => [[b]]
      | h :: t => (b :: h) :: t

/-- Modelled from the spec: the generic stanza tokenizer of the format module,
absent from src/.  The wire form of one stanza is a first line holding the
tag and space-separated arguments, a newline, and a body line that the
tokenizer itself base64-decodes. -/
def recipient_stanza_tokenize (input : Bytes) : Option Stanza :=
  match splitOnByte 10 input with
  | [line1, bodyLine] =>
    match splitOnByte 32 line1 with
    | [] => none
    | tag :: args =>
      match b64decode bodyLine with
      | some body => some { tag := tag, args := args, body := body }
      | none => none
  | _ => none

/-- read::recipient_line on raw wire bytes: tokenize one stanza, then apply
the stanza-level parse; map_opt makes any none a parse failure. -/
def recipient_line_read (input : Bytes) : Option RecipientLine :=
  match recipient_stanza_tokenize input with
  | some st => recipient_line_parse st
  | none => none

/-- write::recipient_line translated from the source: the tag, a space, the
base64 ephemeral public key, a newline, and the base64 encrypted file key. -/
def recipient_line_write (r : RecipientLine) : Bytes :=
  X25519_RECIPIENT_TAG ++ strBytes " " ++ b64encode r.epk
    ++ strBytes "\n" ++ b64encode r.encrypted_file_key

/-- Well-formedness carried by the Rust types: both fields are 32 bytes of
values below 256. -/
def wfRecipientLine (r : RecipientLine) : Prop :=
  r.epk.length = 32 ∧ (∀ b ∈ r.epk, b < 256)
    ∧ r.encrypted_file_key.length = 32 ∧ (∀ b ∈ r.encrypted_file_key, b < 256)

instance (r : RecipientLine) : Decidable (wfRecipientLine r) := by
  unfold wfRecipientLine
  infer_instance

theorem splitOnByte_no_sep (sep : Nat) (l : Bytes) (h : sep ∉ l) :
    splitOnByte sep l = [l] := by
  induction l with
  | nil => rfl
  | cons b rest ih =>
    have hb : b ≠ sep := fun hbs => h (by simp [hbs])
    have hr : sep ∉ rest := fun hs => h (by simp [hs])
    simp only [splitOnByte, if_neg hb, ih hr]

theorem splitOnByte_append (sep : Nat) (A B : Bytes) (hA : sep ∉ A) :
    splitOnByte sep (A ++ sep :: B) = A :: splitOnByte sep B := by
  induction A with
  | nil => simp [splitOnByte]
  | cons a A2 ih =>
    have ha : a ≠ sep := fun has => hA (by simp [has])
    have hA2 : sep ∉ A2 := fun hs => hA (by simp [hs])
    simp only [List.cons_append, splitOnByte, if_neg ha]
    rw [List.append_eq, ih hA2]

theorem splitOnByte_two (sep : Nat) (A B : Bytes) (hA : sep ∉ A) (hB : sep ∉ B) :
    splitOnByte sep (A ++ sep :: B) = [A, B] := by
  rw [splitOnByte_append sep A B hA, splitOnByte_no_sep sep B hB]

theorem tag_bytes_eq : X25519_RECIPIENT_TAG = [88, 50, 53, 53, 49, 57] := by decide

theorem base64_arg_eq_some (arg : Bytes) (len : Nat) (out : Bytes)
    (h : base64_arg arg len = some out) :
    b64decode arg = some out ∧ out.length = len := by
  simp only [base64_arg, Option.bind_eq_some] at h
  obtain ⟨bs, hbs, hif⟩ := h
  by_cases hl : bs.length = len
  · rw [if_pos hl] at hif
    obtain rfl := Option.some.inj hif
    exact ⟨hbs, hl⟩
  · rw [if_neg hl] at hif
    cases hif

theorem read_write_roundtrip (r : RecipientLine) (h : wfRecipientLine r) :
    recipient_line_read (recipient_line_write r) = some r := by
  obtain ⟨hepkl, hepkb, hefkl, hefkb⟩ := h
  have hE1 := b64encode_mem_ge r.epk
  have hE2 := b64encode_mem_ge r.encrypted_file_key
  have hshape : recipient_line_write r
      = (X25519_RECIPIENT_TAG ++ 32 :: b64encode r.epk) ++ 10 :: b64encode r.encrypted_file_key := by
    unfold recipient_line_write
    simp [strBytes, List.append_assoc]
  have hno10 : (10 : Nat) ∉ X25519_RECIPIENT_TAG ++ 32 :: b64encode r.epk := by
    intro hmem
    rw [tag_bytes_eq] at hmem
    simp only [List.mem_append, List.mem_cons] at hmem
    rcases hmem with hmem | hmem | hmem
    · simp at hmem
    · omega
    · have := hE1 10 hmem
      omega
  have hno10b : (10 : Nat) ∉ b64encode r.encrypted_file_key := by
    intro hmem
    have := hE2 10 hmem
    omega
  have hno32t : (32 : Nat) ∉ X25519_RECIPIENT_TAG := by
    rw [tag_bytes_eq]
    decide
  have hno32e : (32 : Nat) ∉ b64encode r.epk := by
    intro hmem
    have := hE1 32 hmem
    omega
  have htok : recipient_stanza_tokenize (recipient_line_write r)
      = some ⟨X25519_RECIPIENT_TAG, [b64encode r.epk], r.encrypted_file_key⟩ := by
    unfold recipient_stanza_tokenize
    rw [hshape, splitOnByte_two 10 _ _ hno10 hno10b]
    show (match splitOnByte 32 (X25519_RECIPIENT_TAG ++ 32 :: b64encode r.epk) with
        | [] => none
        | tag :: args =>
          match b64decode (b64encode r.encrypted_file_key) with
          | some body => some (⟨tag, args, body⟩ : Stanza)
          | none => none)
      = some (⟨X25519_RECIPIENT_TAG, [b64encode r.epk], r.encrypted_file_key⟩ : Stanza)
    rw [splitOnByte_two 32 _ _ hno32t hno32e, b64decode_b64encode _ hefkb]
  have hb64arg : base64_arg (b64encode r.epk) EPK_LEN_BYTES = some r.epk := by
    unfold base64_arg
    rw [b64decode_b64encode _ hepkb]
    simp [hepkl, EPK_LEN_BYTES]
  have hparse : recipient_line_parse
      ⟨X25519_RECIPIENT_TAG, [b64encode r.epk], r.encrypted_file_key⟩ = some r := by
    unfold recipient_line_parse
    rw [if_neg (by simp : ¬(X25519_RECIPIENT_TAG ≠ X25519_RECIPIENT_TAG))]
    show (match base64_arg (b64encode r.epk) EPK_LEN_BYTES with
        | none => none
        | some epk =>
          if r.encrypted_file_key.length = ENCRYPTED_FILE_KEY_BYTES then
            some (⟨epk, r.encrypted_file_key⟩ : RecipientLine)
          else none) = some r
    rw [hb64arg]
    show (if r.encrypted_file_key.length = ENCRYPTED_FILE_KEY_BYTES then
        some (⟨r.epk, r.encrypted_file_key⟩ : RecipientLine) else none) = some r
    rw [if_pos (by rw [hefkl]; rfl)]
  unfold recipient_line_read
  rw [htok]
  exact hparse

/-- C1: for every 16-byte file key and every static secret, unwrapping the
RecipientLine produced by wrapping the file key for the public key of that
secret, with the secret itself, succeeds and returns exactly the file key.
The ephemeral secret drawn inside wrap_file_key is universally quantified. -/
theorem wrap_then_unwrap_roundtrip (fk : Bytes) (S esk : Nat)
    (hlen : fk.length = 16) (hbytes : ∀ b ∈ fk, b < 256) :
    ∃ line, wrap_file_key esk fk (publicKeyOf S) = some line ∧
      unwrap_file_key line S = .ok fk := by
  set pk := publicKeyOf S with hpk
  set K := hkdf (([] ++ publicKeyOf esk) ++ pk) X25519_RECIPIENT_KEY_LABEL
      (diffieHellman esk pk) with hK
  set ct := aead_encrypt K fk with hct
  have hctlen : ct.length = 32 := by
    rw [hct, aead_encrypt_length]
    omega
  refine ⟨⟨publicKeyOf esk, ct⟩, ?_, ?_⟩
  · show (match copy_from_slice ENCRYPTED_FILE_KEY_BYTES (aead_encrypt K fk) with
      | some k => some (⟨publicKeyOf esk, k⟩ : RecipientLine)
      | none => none) = some ⟨publicKeyOf esk, ct⟩
    rw [← hct]
    unfold copy_from_slice ENCRYPTED_FILE_KEY_BYTES
    rw [if_pos hctlen]
  · show (match aead_decrypt (hkdf (([] ++ publicKeyOf esk) ++ pk) X25519_RECIPIENT_KEY_LABEL
        (diffieHellman S (publicKeyOf esk))) ct with
      | none => UnwrapResult.err
      | some pt =>
        match copy_from_slice 16 pt with
        | some fk2 => UnwrapResult.ok fk2
        | none => UnwrapResult.panic) = UnwrapResult.ok fk
    rw [diffieHellman_comm S esk, ← hpk, ← hK, hct, aead_decrypt_encrypt K fk hbytes]
    show (match copy_from_slice 16 fk with
      | some fk2 => UnwrapResult.ok fk2
      | none => UnwrapResult.panic) = UnwrapResult.ok fk
    unfold copy_from_slice
    rw [if_pos hlen]

/-- C2: in both wrap_file_key and unwrap_file_key the salt handed to the
key-derivation function is exactly the ephemeral public key bytes followed by
the recipient public key bytes.  The derivation and aead primitives are
universally quantified, so the orchestration can reach them only through the
displayed arguments, whose salt position is the stated concatenation. -/
theorem salt_is_epk_then_recipient_pk
    (hkdfF : Bytes → Bytes → Bytes → Bytes) (aeadEnc : Bytes → Bytes → Bytes)
    (aeadDec : Bytes → Bytes → Option Bytes)
    (esk : Nat) (fk : Bytes) (pk : Bytes) (line : RecipientLine) (sk : Nat) :
    wrap_file_key_gen hkdfF aeadEnc esk fk pk
      = (match copy_from_slice ENCRYPTED_FILE_KEY_BYTES
            (aeadEnc (hkdfF (publicKeyOf esk ++ pk) X25519_RECIPIENT_KEY_LABEL
              (diffieHellman esk pk)) fk) with
         | some k => some ⟨publicKeyOf esk, k⟩
         | none => none)
    ∧ unwrap_file_key_gen hkdfF aeadDec line sk
      = (match aeadDec (hkdfF (line.epk ++ publicKeyOf sk) X25519_RECIPIENT_KEY_LABEL
            (diffieHellman sk line.epk)) line.encrypted_file_key with
         | none => UnwrapResult.err
         | some pt =>
           match copy_from_slice 16 pt with
           | some fk2 => UnwrapResult.ok fk2
           | none => UnwrapResult.panic) :=
  ⟨rfl, rfl⟩

/-- C3: for every RecipientLine whose encrypted field has the 32 bytes its
Rust type fixes, and every static secret, unwrap_file_key either succeeds
with a file key of exactly 16 bytes or yields the single opaque failure
value; it never panics and never returns partial output. -/
theorem unwrap_sixteen_bytes_or_opaque_failure (line : RecipientLine) (sk : Nat)
    (h : line.encrypted_file_key.length = 32) :
    (∃ fk, unwrap_file_key line sk = .ok fk ∧ fk.length = 16)
      ∨ unwrap_file_key line sk = .err := by
  unfold unwrap_file_key unwrap_file_key_gen
  simp only
  set K := hkdf (([] ++ line.epk) ++ publicKeyOf sk) X25519_RECIPIENT_KEY_LABEL
      (diffieHellman sk line.epk) with hK
  cases hdec : aead_decrypt K line.encrypted_file_key with
  | none => exact Or.inr rfl
  | some pt =>
    have hplen : pt.length = 16 := by
      have := aead_decrypt_length K line.encrypted_file_key pt hdec
      omega
    refine Or.inl ⟨pt, ?_, hplen⟩
    show (match copy_from_slice 16 pt with
      | some fk2 => UnwrapResult.ok fk2
      | none => UnwrapResult.panic) = UnwrapResult.ok pt
    unfold copy_from_slice
    rw [if_pos hplen]

/-- C4 counterexample: a tokenized stanza with tag X25519 carrying two
arguments, the first of which is a valid encoding of 32 bytes, is accepted by
the parse operation, so a stanza with two or more arguments is not rejected:
the source reads only the first argument and ignores the rest. -/
theorem parse_accepts_two_args :
    (⟨strBytes "X25519", [List.replicate 43 65, strBytes "extra"],
        List.replicate 32 0⟩ : Stanza).args.length = 2
    ∧ (recipient_line_parse
        ⟨strBytes "X25519", [List.replicate 43 65, strBytes "extra"],
          List.replicate 32 0⟩).isSome = true := by
  decide

/-- C4 amended: for every tokenized stanza whose tag equals X25519, the parse
operation returns not-applicable when the stanza has no argument; when
arguments are present only the first is examined and extra arguments are
ignored. -/
theorem parse_rejects_missing_arg (st : Stanza)
    (htag : st.tag = X25519_RECIPIENT_TAG) (hargs : st.args = []) :
    recipient_line_parse st = none := by
  unfold recipient_line_parse
  rw [hargs]
  simp

/-- Witness for the amended C4 theorem at a concrete no-argument stanza. -/
theorem parse_rejects_missing_arg_witness :
    recipient_line_parse ⟨strBytes "X25519", [], List.replicate 32 0⟩ = none :=
  parse_rejects_missing_arg _ rfl rfl

/-- C5: for every stanza with tag X25519 whose first argument does not decode
to exactly 32 bytes, or whose body is not exactly 32 bytes, the parse
operation returns not-applicable rather than a RecipientLine; being a total
function it cannot crash. -/
theorem parse_rejects_wrong_lengths (st : Stanza)
    (h : (∃ a, st.args.get? 0 = some a ∧ ∀ bs, b64decode a = some bs → bs.length ≠ 32)
      ∨ st.body.length ≠ 32) :
    recipient_line_parse st = none := by
  unfold recipient_line_parse
  by_cases htag : st.tag ≠ X25519_RECIPIENT_TAG
  case _ => rw [if_pos htag]
  case _ =>
    rw [if_neg htag]
    cases harg : st.args.get? 0 with
    | none => rfl
    | some a =>
      show (match base64_arg a EPK_LEN_BYTES with
        | none => none
        | some epk =>
          if st.body.length = ENCRYPTED_FILE_KEY_BYTES then
            some (⟨epk, st.body⟩ : RecipientLine)
          else none) = none
      cases hdec : base64_arg a EPK_LEN_BYTES with
      | none => rfl
      | some epk =>
        have hbody : st.body.length ≠ 32 := by
          rcases h with ⟨a2, ha2, hbad⟩ | hb
          · rw [harg] at ha2
            obtain rfl : a = a2 := Option.some.inj ha2
            obtain ⟨hbd, hbl⟩ := base64_arg_eq_some a EPK_LEN_BYTES epk hdec
            exact absurd (by simpa [EPK_LEN_BYTES] using hbl) (hbad epk hbd)
          · exact hb
        show (if st.body.length = ENCRYPTED_FILE_KEY_BYTES then
            some (⟨epk, st.body⟩ : RecipientLine) else none) = none
        rw [if_neg (by simpa [ENCRYPTED_FILE_KEY_BYTES] using hbody)]

/-- Witness for C5 at a concrete X25519 stanza with a valid key argument but
a 31-byte body. -/
theorem parse_rejects_wrong_lengths_witness :
    recipient_line_parse
      ⟨strBytes "X25519", [List.replicate 43 65], List.replicate 31 0⟩ = none :=
  parse_rejects_wrong_lengths _ (Or.inr (by decide))

/-- C6: for every stanza whose tag is anything other than X25519, the parse
operation returns not-applicable regardless of the arguments and the body. -/
theorem parse_rejects_other_tags (st : Stanza) (h : st.tag ≠ X25519_RECIPIENT_TAG) :
    recipient_line_parse st = none := by
  unfold recipient_line_parse
  rw [if_pos h]

/-- Witness for C6 at a concrete stanza with tag scrypt and otherwise valid
content. -/
theorem parse_rejects_other_tags_witness :
    recipient_line_parse
      ⟨strBytes "scrypt", [List.replicate 43 65], List.replicate 32 0⟩ = none :=
  parse_rejects_other_tags _ (by decide)

/-- C7: serialization of a RecipientLine deterministically produces exactly
the tag, a space, the base64 ephemeral public key, a newline, and the base64
encrypted file key, and appends no trailing newline; as a total function it
has no failure mode. -/
theorem write_exact_layout (r : RecipientLine) (h : r.encrypted_file_key ≠ []) :
    recipient_line_write r
      = strBytes "X25519" ++ strBytes " " ++ b64encode r.epk ++ strBytes "\n"
          ++ b64encode r.encrypted_file_key
    ∧ ∀ c, (recipient_line_write r).getLast? = some c → c ≠ 10 := by
  refine ⟨rfl, ?_⟩
  intro c hc
  have hne : b64encode r.encrypted_file_key ≠ [] := b64encode_ne_nil _ h
  have hl : (recipient_line_write r).getLast? = (b64encode r.encrypted_file_key).getLast? := by
    unfold recipient_line_write
    rw [List.getLast?_append_of_ne_nil _ hne]
  rw [hl] at hc
  obtain ⟨hne2, heq⟩ := List.mem_getLast?_eq_getLast
    (show c ∈ (b64encode r.encrypted_file_key).getLast? from hc)
  have hmem : c ∈ b64encode r.encrypted_file_key := by
    rw [heq]
    exact List.getLast_mem hne2
  have := b64encode_mem_ge _ c hmem
  omega

/-- Witness for C7 at a concrete RecipientLine. -/
theorem write_exact_layout_witness :
    recipient_line_write ⟨List.replicate 32 0, List.replicate 32 0⟩
      = strBytes "X25519" ++ strBytes " " ++ b64encode (List.replicate 32 0) ++ strBytes "\n"
          ++ b64encode (List.replicate 32 0)
    ∧ ∀ c, (recipient_line_write ⟨List.replicate 32 0, List.replicate 32 0⟩).getLast?
        = some c → c ≠ 10 :=
  write_exact_layout ⟨List.replicate 32 0, List.replicate 32 0⟩ (by decide)

/-- C8: serializing a well-formed RecipientLine, parsing the resulting wire
text with the stanza tokenizer followed by the X25519 parse, and serializing
the parsed result gives byte-for-byte the same output as serializing the
original line. -/
theorem serialize_parse_serialize (r : RecipientLine) (h : wfRecipientLine r) :
    (recipient_line_read (recipient_line_write r)).map recipient_line_write
      = some (recipient_line_write r) := by
  rw [read_write_roundtrip r h]
  rfl

/-- Witness for C8 at a concrete well-formed RecipientLine. -/
theorem serialize_parse_serialize_witness :
    (recipient_line_read (recipient_line_write ⟨List.replicate 32 0, List.replicate 32 0⟩)).map
        recipient_line_write
      = some (recipient_line_write ⟨List.replicate 32 0, List.replicate 32 0⟩) :=
  serialize_parse_serialize ⟨List.replicate 32 0, List.replicate 32 0⟩ (by decide)

/-- C10: under the aead contract, the unchecked fixed-size copies never
panic: if encryption of a 16-byte plaintext returns exactly 32 bytes then
the copy inside wrap_file_key succeeds, and if successful decryption of the
32-byte field returns exactly 16 bytes then the copy inside unwrap_file_key
succeeds, so the length-mismatch panic branch is unreachable. -/
theorem unchecked_copies_never_panic
    (hkdfF : Bytes → Bytes → Bytes → Bytes)
    (aeadEnc : Bytes → Bytes → Bytes) (aeadDec : Bytes → Bytes → Option Bytes)
    (hencLen : ∀ key pt, pt.length = 16 → (aeadEnc key pt).length = 32)
    (hdecLen : ∀ key ct pt, ct.length = 32 → aeadDec key ct = some pt → pt.length = 16)
    (esk : Nat) (fk : Bytes) (pk : Bytes) (line : RecipientLine) (sk : Nat)
    (hfk : fk.length = 16) (hline : line.encrypted_file_key.length = 32) :
    (wrap_file_key_gen hkdfF aeadEnc esk fk pk).isSome = true
      ∧ unwrap_file_key_gen hkdfF aeadDec line sk ≠ .panic := by
  constructor
  · have hlen := hencLen (hkdfF (([] ++ publicKeyOf esk) ++ pk) X25519_RECIPIENT_KEY_LABEL
      (diffieHellman esk pk)) fk hfk
    show (match copy_from_slice ENCRYPTED_FILE_KEY_BYTES
        (aeadEnc (hkdfF (([] ++ publicKeyOf esk) ++ pk) X25519_RECIPIENT_KEY_LABEL
          (diffieHellman esk pk)) fk) with
      | some k => some (⟨publicKeyOf esk, k⟩ : RecipientLine)
      | none => none).isSome = true
    unfold copy_from_slice ENCRYPTED_FILE_KEY_BYTES
    rw [if_pos hlen]
    rfl
  · set K := hkdfF (([] ++ line.epk) ++ publicKeyOf sk) X25519_RECIPIENT_KEY_LABEL
      (diffieHellman sk line.epk) with hK
    show (match aeadDec K line.encrypted_file_key with
      | none => UnwrapResult.err
      | some pt =>
        match copy_from_slice 16 pt with
        | some fk2 => UnwrapResult.ok fk2
        | none => UnwrapResult.panic) ≠ UnwrapResult.panic
    cases hdec : aeadDec K line.encrypted_file_key with
    | none => simp
    | some pt =>
      have hplen : pt.length = 16 := hdecLen K line.encrypted_file_key pt hline hdec
      show (match copy_from_slice 16 pt with
        | some fk2 => UnwrapResult.ok fk2
        | none => UnwrapResult.panic) ≠ UnwrapResult.panic
      unfold copy_from_slice
      rw [if_pos hplen]
      simp

/-- Witness for C10: the contract hypotheses hold of the modelled aead, and
the copies succeed at concrete inputs. -/
theorem unchecked_copies_never_panic_witness :
    (wrap_file_key_gen hkdf aead_encrypt 3 (List.replicate 16 7)
        (List.replicate 32 1)).isSome = true
      ∧ unwrap_file_key_gen hkdf aead_decrypt
          ⟨List.replicate 32 2, List.replicate 32 3⟩ 5 ≠ .panic :=
  unchecked_copies_never_panic hkdf aead_encrypt aead_decrypt
    (fun key pt hp => by rw [aead_encrypt_length, hp])
    (fun key ct pt hct hdec => by
      have := aead_decrypt_length key ct pt hdec
      omega)
    3 (List.replicate 16 7) (List.replicate 32 1) ⟨List.replicate 32 2, List.replicate 32 3⟩ 5
    (by decide) (by decide)

/-- Witness for C1: the round trip holds at a concrete file key, static
secret and ephemeral secret. -/
theorem wrap_then_unwrap_roundtrip_witness :
    ∃ line, wrap_file_key 3 (List.replicate 16 7) (publicKeyOf 5) = some line ∧
      unwrap_file_key line 5 = .ok (List.replicate 16 7) :=
  wrap_then_unwrap_roundtrip (List.replicate 16 7) 5 3 (by decide) (by decide)

/-- Witness for C3: at a concrete RecipientLine and static secret, unwrap
yields sixteen bytes or the opaque failure. -/
theorem unwrap_sixteen_bytes_or_opaque_failure_witness :
    (∃ fk, unwrap_file_key ⟨List.replicate 32 2, List.replicate 32 3⟩ 5 = .ok fk
        ∧ fk.length = 16)
      ∨ unwrap_file_key ⟨List.replicate 32 2, List.replicate 32 3⟩ 5 = .err :=
  unwrap_sixteen_bytes_or_opaque_failure ⟨List.replicate 32 2, List.replicate 32 3⟩ 5 (by decide)

end RageX25519
